import Mathlib

/-!
Verification of the asset reconciliation engine (`sync_service.py`,
`redis_client.py`, `models.py`, `github_manager.py`).

The Redis store is modelled as explicit data: hashes become association
lists over `String` keys (Redis hashes cannot hold duplicate fields, so
inserts overwrite), Redis sets become duplicate-free pair lists with
`SADD`/`SREM` semantics, and the changed queue becomes a plain list with
`RPUSH`/`LTRIM`.  Per-operation Redis failures (`RedisError` caught inside
`save_asset_atomic` / `delete_asset_atomic`) are modelled by boolean
oracles: a failed pipeline performs no mutation and reports `false`, which
is the abstraction the claims rely on ("atomic batch").
-/

namespace AssetSync

/-- The validated manifest fields that the sync engine reads
(`models.ManifestData`; serialized sub-structures, `author` and the
optional blocks are claim-irrelevant and elided). -/
structure Manifest where
  id : String
  version : String
  category : String
  name : String
  description : String
deriving Repr, DecidableEq

/-- `models.Asset`: a manifest together with its GitHub provenance. -/
structure Asset where
  manifest : Manifest
  githubPath : String
  githubSha : String
deriving Repr, DecidableEq

def Asset.id (a : Asset) : String := a.manifest.id

def Asset.version (a : Asset) : String := a.manifest.version

def Asset.category (a : Asset) : String := a.manifest.category

/-- `models.StoredAsset`: the denormalized record kept in the Redis hash
(timestamps and serialized sub-structures elided; no claim reads them). -/
structure StoredAsset where
  id : String
  version : String
  category : String
  name : String
  description : String
  githubPath : String
  githubSha : String
deriving Repr, DecidableEq

/-- `models.Asset.to_stored_asset`. -/
def Asset.toStoredAsset (a : Asset) : StoredAsset :=
  { id := a.manifest.id
    version := a.manifest.version
    category := a.manifest.category
    name := a.manifest.name
    description := a.manifest.description
    githubPath := a.githubPath
    githubSha := a.githubSha }

/-- `redis_client.RedisKeys.make_index_entry`: lightweight global-index
projection, description truncated to 100 characters. -/
structure IndexEntry where
  id : String
  name : String
  category : String
  version : String
  description : String
deriving Repr, DecidableEq

def makeIndexEntry (a : StoredAsset) : IndexEntry :=
  { id := a.id
    name := a.name
    category := a.category
    version := a.version
    description := ⟨a.description.data.take 100⟩ }

/-! ### Association-list primitives (Redis hashes and sets) -/

/-- `HGET`-style lookup in an association list. -/
def alGet {α : Type} : List (String × α) → String → Option α
  | [], _ => none
  | (k, v) :: rest, x => if k = x then some v else alGet rest x

/-- `HDEL`: remove the field `k`. -/
def alDel {α : Type} : List (String × α) → String → List (String × α)
  | [], _ => []
  | p :: rest, k => if p.1 = k then alDel rest k else p :: alDel rest k

/-- `HSET`: overwrite-or-insert the field `k`. -/
def alSet {α : Type} (m : List (String × α)) (k : String) (v : α) : List (String × α) :=
  (k, v) :: alDel m k

/-- `SADD` on a category index modelled as a list of (category, id) pairs. -/
def sadd (l : List (String × String)) (c i : String) : List (String × String) :=
  if (c, i) ∈ l then l else (c, i) :: l

/-- `SREM` on a category index. -/
def srem : List (String × String) → String → String → List (String × String)
  | [], _, _ => []
  | p :: rest, c, i => if p = (c, i) then srem rest c i else p :: srem rest c i

/-! ### The Redis store state (`redis_client.RedisClient`) -/

/-- The five logical record families of the store: `asset:metadata:{id}`
hashes, `asset:category:{category}` sets (flattened to (category, id)
pairs), the `asset:index` hash, the `asset:sync:state` hash (its three
used fields), and the `asset:sync:changed` list. -/
structure Store where
  metadata : List (String × StoredAsset)
  catIdx : List (String × String)
  globalIdx : List (String × IndexEntry)
  syncStatus : Option String
  lastSyncTime : Option Nat
  lastCommitSha : Option String
  syncedCount : Option String
  changed : List String
deriving Repr, DecidableEq

/-- `RedisClient.get_sync_status`: missing field defaults to "idle". -/
def getSyncStatus (s : Store) : String := s.syncStatus.getD "idle"

/-- `RedisClient.set_sync_status`. -/
def setSyncStatus (s : Store) (status : String) : Store :=
  { s with syncStatus := some status }

/-- `RedisClient.add_changed_asset`: RPUSH onto the changed queue. -/
def addChangedAsset (s : Store) (i : String) : Store :=
  { s with changed := s.changed ++ [i] }

/-- `LTRIM key -keep -1`: keep the last `keep` entries. -/
def ltrim (l : List String) (keep : Nat) : List String :=
  l.drop (l.length - keep)

/-- `RedisClient.trim_changed_assets`. -/
def trimChangedAssets (s : Store) (keep : Nat) : Store :=
  { s with changed := ltrim s.changed keep }

/-- `RedisClient.save_asset_atomic`: one pipeline writing the metadata
hash, fixing the category index (the old-category removal is guarded by
Python truthiness, hence the `oc ≠ ""` test), and upserting the global
index entry.  `ok = false` models a `RedisError` from the pipeline: the
call reports `False` and, per the atomic-batch abstraction, mutates
nothing. -/
def saveAssetAtomic (s : Store) (a : StoredAsset) (oldCategory : Option String)
    (ok : Bool) : Bool × Store :=
  if ok then
    let s1 := { s with metadata := alSet s.metadata a.id a }
    let s2 :=
      match oldCategory with
      | some oc =>
        if oc ≠ "" ∧ oc ≠ a.category then
          { s1 with catIdx := srem s1.catIdx oc a.id }
        else s1
      | none => s1
    let s3 := { s2 with catIdx := sadd s2.catIdx a.category a.id }
    let s4 := { s3 with globalIdx := alSet s3.globalIdx a.id (makeIndexEntry a) }
    (true, s4)
  else (false, s)

/-- `RedisClient.delete_asset_atomic`: reads the record to learn its
category; a missing record reports `False` without touching anything;
otherwise one pipeline removes the category-index member, the metadata
hash and the global-index entry. -/
def deleteAssetAtomic (s : Store) (i : String) (ok : Bool) : Bool × Store :=
  match alGet s.metadata i with
  | none => (false, s)
  | some a =>
    if ok then
      let s1 := { s with catIdx := srem s.catIdx a.category i }
      let s2 := { s1 with metadata := alDel s1.metadata i }
      let s3 := { s2 with globalIdx := alDel s2.globalIdx i }
      (true, s3)
    else (false, s)

/-! ### The sync engine (`sync_service.AssetSyncService`) -/

/-- `sync_service.SyncStats` (wall-clock fields elided). -/
structure SyncStats where
  totalProcessed : Nat := 0
  created : Nat := 0
  updated : Nat := 0
  deleted : Nat := 0
  failed : Nat := 0
  errors : List String := []
deriving Repr, DecidableEq

/-- The external collaborators of one sync run: the parsed assets
returned by `GitHubManager.fetch_and_parse_all`, per-id success oracles
for the two atomic store operations, and
`GitHubManager.get_commits_since` (commits abstracted to strings). -/
structure SyncEnv where
  assets : List Asset
  saveOk : String → Bool
  delOk : String → Bool
  commitsSince : Nat → List String

/-- `AssetSyncService._should_update_asset`. -/
def shouldUpdateAsset (a : Asset) (existing : Option StoredAsset) : Bool :=
  match existing with
  | none => true
  | some e =>
    if e.githubSha ≠ a.githubSha then true
    else if e.version ≠ a.version then true
    else false

/-- One iteration of the per-asset loop in
`AssetSyncService.sync_from_github` (lines 130-160): decide against the
pre-run snapshot, save atomically, classify created/updated, push the id
onto the changed queue on success, count a failure otherwise. -/
def processAsset (existing : List (String × StoredAsset)) (existingIds : List String)
    (saveOk : String → Bool) (acc : Store × SyncStats) (a : Asset) : Store × SyncStats :=
  if shouldUpdateAsset a (alGet existing a.id) then
    let stored := a.toStoredAsset
    let oldCategory := (alGet existing a.id).map StoredAsset.category
    let r := saveAssetAtomic acc.1 stored oldCategory (saveOk a.id)
    if r.1 then
      let st :=
        if a.id ∈ existingIds then { acc.2 with updated := acc.2.updated + 1 }
        else { acc.2 with created := acc.2.created + 1 }
      (addChangedAsset r.2 a.id, st)
    else
      (r.2, { acc.2 with failed := acc.2.failed + 1,
                         errors := acc.2.errors ++ ["Failed to save asset: " ++ a.id] })
  else acc

/-- The incoming id set (`github_ids`). -/
def githubIds (assets : List Asset) : List String := assets.map Asset.id

/-- The per-asset loop of `sync_from_github`, started from the snapshot
store `s0` (whose metadata is also the comparison snapshot
`existing_assets` and id set `existing_ids`). -/
def syncLoopRes (s0 : Store) (env : SyncEnv) : Store × SyncStats :=
  env.assets.foldl
    (processAsset s0.metadata (s0.metadata.map Prod.fst) env.saveOk)
    (s0, { totalProcessed := env.assets.length })

/-- `deleted_ids = existing_ids - github_ids`. -/
def syncDeletedIds (s0 : Store) (env : SyncEnv) : List String :=
  (s0.metadata.map Prod.fst).filter (fun i => decide (i ∉ githubIds env.assets))

/-- The deletion pass over `deleted_ids` (`delete_asset_atomic` return
values are ignored by the caller, and `RedisError` failures are caught
inside the client, so failures are silent here). -/
def delPhase (delOk : String → Bool) (L : List String) (s : Store) : Store :=
  L.foldl (fun t i => (deleteAssetAtomic t i (delOk i)).2) s

/-- `AssetSyncService.sync_from_github` without the exception path:
status := syncing; snapshot the store; per-asset loop; deletion pass;
update the sync-state fields and trim the changed queue; the `finally`
block sets status idle exactly when `stats.failed == 0` (otherwise the
status is left as it was, i.e. "syncing"). -/
def syncFromGithub (s : Store) (env : SyncEnv) (now : Nat) : Store × SyncStats :=
  let s0 := setSyncStatus s "syncing"
  let r := syncLoopRes s0 env
  let deletedIds := syncDeletedIds s0 env
  let st : SyncStats := { r.2 with deleted := deletedIds.length }
  let s2 := delPhase env.delOk deletedIds r.1
  ({ s2 with
      lastSyncTime := some now,
      syncedCount := some (toString (githubIds env.assets).dedup.length),
      changed := ltrim s2.changed 1000,
      syncStatus := if st.failed = 0 then some "idle" else s2.syncStatus }, st)

/-- The control flow of `sync_from_github` when an exception escapes the
`try` body carrying `failedSoFar` per-asset failures: the `except` block
sets status "failed" and re-raises, but the `finally` block still runs
and sets status "idle" whenever `stats.failed == 0`. -/
def syncFromGithubAbort (s : Store) (failedSoFar : Nat) : Store :=
  let s0 := setSyncStatus s "syncing"
  let s1 := setSyncStatus s0 "failed"
  if failedSoFar = 0 then setSyncStatus s1 "idle" else s1

/-- `AssetSyncService.incremental_sync`. -/
def incrementalSync (s : Store) (env : SyncEnv) (now : Nat) : Store × SyncStats :=
  match s.lastSyncTime with
  | none => syncFromGithub s env now
  | some t =>
    if (env.commitsSince t).isEmpty then (s, {})
    else syncFromGithub s env now

/-! ### Version arithmetic (`AssetSyncService._increment_version`) -/

/-- Python `str.split(".")` on the character list. -/
def splitDot : List Char → List (List Char)
  | [] => [[]]
  | c :: rest =>
    let r := splitDot rest
    if c = '.' then [] :: r
    else
      match r with
      | [] => [[c]]
      | h :: t => (c :: h) :: t

/-- One-or-more decimal digits, as Python `int` accepts. -/
def digitsToNat : List Char → Option Nat
  | [] => none
  | cs =>
    if cs.all Char.isDigit then
      some (cs.foldl (fun n c => n * 10 + (c.toNat - '0'.toNat)) 0)
    else none

/-- Python `int(s)`: optional sign then digits; anything else raises
`ValueError`, modelled as `none`. -/
def pyInt (s : String) : Option Int :=
  match s.data with
  | '-' :: rest => (digitsToNat rest).map (fun n => -(n : Int))
  | '+' :: rest => (digitsToNat rest).map (fun n => (n : Int))
  | cs => (digitsToNat cs).map (fun n => (n : Int))

/-- `AssetSyncService._increment_version`: split on dots; with three or
more parts replace the third by `str(int(part) + 1)` (a `ValueError`
from `int` propagates, modelled by `Except.error`); otherwise return the
input unchanged. -/
def incrementVersion (version : String) : Except String String :=
  let parts := (splitDot version.data).map (fun cs => String.mk cs)
  if parts.length ≥ 3 then
    match pyInt (parts.getD 2 "") with
    | some n =>
      Except.ok (String.intercalate "." (parts.set 2 (toString (n + 1))))
    | none => Except.error "ValueError"
  else Except.ok version

/-- The semver pattern of `models.ManifestData.validate_version`:
regex `\d+\.\d+\.\d+(-[a-zA-Z0-9.]+)?` anchored at both ends. -/
def validVersion (v : String) : Bool :=
  let isPre : Char → Bool := fun c => c.isAlphanum || c = '.'
  let rec run : List Char → Nat → Bool
    | cs, 0 =>
      -- final component: digits, optionally followed by '-' and pre-release
      let digits := cs.takeWhile Char.isDigit
      let rest := cs.drop digits.length
      digits ≠ [] &&
        (rest = [] ||
          (match rest with
           | '-' :: pre => pre ≠ [] && pre.all isPre
           | _ => false))
    | cs, n + 1 =>
      let digits := cs.takeWhile Char.isDigit
      let rest := cs.drop digits.length
      digits ≠ [] &&
        (match rest with
         | '.' :: rest2 => run rest2 n
         | _ => false)
  run v.data 2

/-! ### GitHub repository model (`github_manager.GitHubManager`) -/

/-- The repository contents visible to the engine: the parsed assets, one
per manifest file. -/
structure GitHub where
  files : List Asset
deriving Repr, DecidableEq

/-- `GitHubManager.get_asset_by_id`: first scanned manifest whose id
matches. -/
def getAssetById (gh : GitHub) (assetId : String) : Option Asset :=
  gh.files.find? (fun a => a.manifest.id == assetId)

/-- `GitHubManager.save_to_github`: update the file at `targetPath` when
it exists (the committed blob gets a fresh content sha `newSha`),
otherwise create it. -/
def saveToGithub (gh : GitHub) (targetPath : String) (m : Manifest) (newSha : String) :
    GitHub :=
  if gh.files.any (fun a => a.githubPath == targetPath) then
    { files := gh.files.map (fun a =>
        if a.githubPath == targetPath then ⟨m, targetPath, newSha⟩ else a) }
  else { files := gh.files ++ [⟨m, targetPath, newSha⟩] }

/-- `AssetSyncService.update_asset`: resolve the asset (not found reports
failure), overwrite the caller's version with the auto-incremented patch
of the existing version (a `ValueError` from `_increment_version`
propagates as `Except.error`), write back to the existing path, re-read
by id and save to the store with the previous category. -/
def updateAsset (gh : GitHub) (s : Store) (assetId : String) (manifestData : Manifest)
    (newSha : String) : Except String (Bool × GitHub × Store) :=
  match getAssetById gh assetId with
  | none => Except.ok (false, gh, s)
  | some existing =>
    match incrementVersion existing.manifest.version with
    | Except.error e => Except.error e
    | Except.ok v =>
      let md := { manifestData with version := v }
      let gh2 := saveToGithub gh existing.githubPath md newSha
      match getAssetById gh2 assetId with
      | some a =>
        let r := saveAssetAtomic s a.toStoredAsset (some existing.manifest.category) true
        Except.ok (true, gh2, r.2)
      | none => Except.ok (true, gh2, s)

/-! ### Invariant predicates -/

/-- Redis-representability: hash fields are unique, set members are
unique.  Every state reachable through the Redis client satisfies this
by construction of the underlying data types. -/
structure WF (s : Store) : Prop where
  meta_nodup : (s.metadata.map Prod.fst).Nodup
  global_nodup : (s.globalIdx.map Prod.fst).Nodup
  cat_nodup : s.catIdx.Nodup

/-- The cross-structure consistency invariant of §3 of the design: the
global index is keyed exactly by the stored ids, and category membership
is exactly the stored record's category. -/
structure Consistent (s : Store) : Prop where
  global_iff : ∀ x, (alGet s.globalIdx x).isSome ↔ (alGet s.metadata x).isSome
  cat_iff : ∀ c x, (c, x) ∈ s.catIdx ↔
    ∃ r, alGet s.metadata x = some r ∧ c = r.category

/-- The category enumeration enforced by `models.ManifestData`
(`Literal["tool", "prompt", "skill"]`). -/
def validCategory (c : String) : Prop := c = "tool" ∨ c = "prompt" ∨ c = "skill"

instance validCategory.instDecidable (c : String) : Decidable (validCategory c) := by
  unfold validCategory
  infer_instance

/-- All stored records carry a validated category. -/
def StoreCatsValid (s : Store) : Prop :=
  ∀ x r, alGet s.metadata x = some r → validCategory r.category

/-- Number of occurrences of `a` in `l` (used to state the
"exactly once" parts of the index-bijection claims). -/
def countEq {α : Type} [DecidableEq α] (l : List α) (a : α) : Nat :=
  (l.filter (fun b => decide (b = a))).length

/-! ### Concrete fixtures for counterexamples and witnesses -/

def emptyStore : Store := ⟨[], [], [], none, none, none, none, []⟩

def toolManifestX : Manifest := ⟨"x", "1.0.0", "tool", "n", "d"⟩

def skillManifestX : Manifest := ⟨"x", "1.0.0", "skill", "n", "d"⟩

def toolAssetX : Asset := ⟨toolManifestX, "tools/x/manifest.yaml", "sha-a"⟩

def skillAssetX : Asset := ⟨skillManifestX, "skills/x/manifest.yaml", "sha-b"⟩

/-- Two manifests at different paths sharing the id "x" (the duplicate-id
scenario §8 of the design calls an accepted ambiguity). -/
def dupIdEnv : SyncEnv := ⟨[toolAssetX, skillAssetX], fun _ => true, fun _ => true, fun _ => []⟩

def okEnv : SyncEnv := ⟨[toolAssetX], fun _ => true, fun _ => true, fun _ => []⟩

def failSaveEnv : SyncEnv := ⟨[toolAssetX], fun _ => false, fun _ => true, fun _ => []⟩

/-- A store holding exactly the asset "x" with category "tool",
consistent across all three structures. -/
def toolStoreX : Store :=
  ⟨[("x", toolAssetX.toStoredAsset)], [("tool", "x")],
   [("x", makeIndexEntry toolAssetX.toStoredAsset)], none, none, none, none, []⟩

/-- An incoming manifest for "x" with category "skill" but the same
github sha and version as the stored "tool" record. -/
def skillSameShaEnv : SyncEnv :=
  ⟨[⟨skillManifestX, "skills/x/manifest.yaml", "sha-a"⟩],
   fun _ => true, fun _ => true, fun _ => []⟩

/-- An incoming manifest for "x" with category "skill" and a fresh
github sha. -/
def skillNewShaEnv : SyncEnv := ⟨[skillAssetX], fun _ => true, fun _ => true, fun _ => []⟩

def recD : StoredAsset := ⟨"d", "1.0.0", "tool", "n", "d", "tools/d/manifest.yaml", "sha-d"⟩

/-- A store holding only the asset "d", which no incoming asset names. -/
def staleStoreD : Store :=
  ⟨[("d", recD)], [("tool", "d")], [("d", makeIndexEntry recD)], none, none, none, none, []⟩

def idleStore5 : Store := ⟨[], [], [], none, some 5, none, none, []⟩

def betaManifestX : Manifest := ⟨"x", "1.2.3-beta", "tool", "n", "d"⟩

def betaRepo : GitHub := ⟨[⟨betaManifestX, "tools/x/manifest.yaml", "sha0"⟩]⟩

def semverRepo : GitHub := ⟨[⟨⟨"x", "1.2.3", "tool", "n", "d"⟩, "tools/x/manifest.yaml", "sha0"⟩]⟩

def callerManifestX : Manifest := ⟨"x", "9.9.9", "tool", "n", "d"⟩

def snapX : List (String × StoredAsset) := [("x", toolAssetX.toStoredAsset)]

/-- Membership shape shared by all three category-index outcomes of a
snapshot-consistent atomic save: the new pair is present, and all other
pairs for `a.id` are gone. -/
def SaveCatShape (s : Store) (a : StoredAsset) (ci : List (String × String)) : Prop :=
  ∀ c x, (c, x) ∈ ci ↔ (c = a.category ∧ x = a.id) ∨ ((c, x) ∈ s.catIdx ∧ x ≠ a.id)

/-- The ids appended to the changed queue by one pass of the loop: the
incoming assets that needed a write and whose save succeeded. -/
def changedList (ex : List (String × StoredAsset)) (sOk : String → Bool)
    (assets : List Asset) : List String :=
  (assets.filter (fun a => shouldUpdateAsset a (alGet ex a.id) && sOk a.id)).map Asset.id

theorem alDel_sublist {α : Type} (m : List (String × α)) (k : String) :
    (alDel m k).Sublist m := by
  induction m with
  | nil => simp [alDel]
  | cons p rest ih =>
    by_cases hk : p.1 = k
    · simp only [alDel, if_pos hk]
      exact ih.cons p
    · simp only [alDel, if_neg hk]
      exact ih.cons₂ p

theorem alGet_alDel_other {α : Type} (m : List (String × α)) (k x : String) (h : x ≠ k) :
    alGet (alDel m k) x = alGet m x := by
  induction m with
  | nil => rfl
  | cons p rest ih =>
    by_cases hk : p.1 = k
    · have hx : p.1 ≠ x := by rw [hk]; exact Ne.symm h
      have hcons : alGet (p :: rest) x = alGet rest x := by simp [alGet, hx]
      simp only [alDel, if_pos hk]
      rw [ih, hcons]
    · simp [alDel, hk, alGet, ih]

theorem alGet_alDel_self {α : Type} (m : List (String × α)) (k : String) :
    alGet (alDel m k) k = none := by
  induction m with
  | nil => rfl
  | cons p rest ih =>
    by_cases hk : p.1 = k
    · simpa [alDel, hk] using ih
    · simpa [alDel, hk, alGet] using ih

theorem alGet_alSet_self {α : Type} (m : List (String × α)) (k : String) (v : α) :
    alGet (alSet m k v) k = some v := by
  simp [alSet, alGet]

theorem alGet_alSet_other {α : Type} (m : List (String × α)) (k x : String) (v : α)
    (h : x ≠ k) : alGet (alSet m k v) x = alGet m x := by
  simp only [alSet, alGet]
  rw [if_neg (Ne.symm h)]
  exact alGet_alDel_other m k x h

theorem alGet_eq_none_iff {α : Type} (m : List (String × α)) (x : String) :
    alGet m x = none ↔ x ∉ m.map Prod.fst := by
  induction m with
  | nil => simp [alGet]
  | cons p rest ih =>
    by_cases hk : p.1 = x
    · simp [alGet, hk]
    · simp [alGet, hk, ih, Ne.symm hk]

theorem alGet_isSome_iff {α : Type} (m : List (String × α)) (x : String) :
    (alGet m x).isSome ↔ x ∈ m.map Prod.fst := by
  induction m with
  | nil => simp [alGet]
  | cons p rest ih =>
    by_cases hk : p.1 = x
    · simp [alGet, hk]
    · simp [alGet, hk, ih, Ne.symm hk]

theorem key_not_mem_alDel {α : Type} (m : List (String × α)) (k : String) :
    k ∉ (alDel m k).map Prod.fst := by
  intro hmem
  have := (alGet_isSome_iff (alDel m k) k).mpr hmem
  rw [alGet_alDel_self] at this
  simp at this

theorem nodup_keys_alDel {α : Type} (m : List (String × α)) (k : String)
    (h : (m.map Prod.fst).Nodup) : ((alDel m k).map Prod.fst).Nodup :=
  List.Nodup.sublist ((alDel_sublist m k).map Prod.fst) h

theorem nodup_keys_alSet {α : Type} (m : List (String × α)) (k : String) (v : α)
    (h : (m.map Prod.fst).Nodup) : ((alSet m k v).map Prod.fst).Nodup := by
  simp only [alSet, List.map_cons, List.nodup_cons]
  exact ⟨key_not_mem_alDel m k, nodup_keys_alDel m k h⟩

theorem mem_sadd (l : List (String × String)) (c i : String) (p : String × String) :
    p ∈ sadd l c i ↔ p = (c, i) ∨ p ∈ l := by
  unfold sadd
  by_cases h : (c, i) ∈ l
  · simp only [if_pos h]
    constructor
    · exact Or.inr
    · rintro (rfl | hp)
      · exact h
      · exact hp
  · simp [if_neg h]

theorem mem_srem (l : List (String × String)) (c i : String) (p : String × String) :
    p ∈ srem l c i ↔ p ∈ l ∧ p ≠ (c, i) := by
  induction l with
  | nil => simp [srem]
  | cons q rest ih =>
    by_cases hq : q = (c, i)
    · simp only [srem, if_pos hq, ih, List.mem_cons]
      constructor
      · rintro ⟨hm, hne⟩; exact ⟨Or.inr hm, hne⟩
      · rintro ⟨hm | hm, hne⟩
        · exact absurd (hm.trans hq) hne
        · exact ⟨hm, hne⟩
    · simp only [srem, if_neg hq, List.mem_cons, ih]
      constructor
      · rintro (rfl | ⟨hm, hne⟩)
        · exact ⟨Or.inl rfl, hq⟩
        · exact ⟨Or.inr hm, hne⟩
      · rintro ⟨hm | hm, hne⟩
        · exact Or.inl hm
        · exact Or.inr ⟨hm, hne⟩

theorem srem_sublist (l : List (String × String)) (c i : String) :
    (srem l c i).Sublist l := by
  induction l with
  | nil => simp [srem]
  | cons q rest ih =>
    by_cases hq : q = (c, i)
    · simp only [srem, if_pos hq]
      exact ih.cons q
    · simp only [srem, if_neg hq]
      exact ih.cons₂ q

theorem nodup_sadd (l : List (String × String)) (c i : String)
    (h : l.Nodup) : (sadd l c i).Nodup := by
  unfold sadd
  by_cases hm : (c, i) ∈ l
  · simpa [if_pos hm]
  · simpa [if_neg hm, List.nodup_cons] using ⟨hm, h⟩

theorem nodup_srem (l : List (String × String)) (c i : String)
    (h : l.Nodup) : (srem l c i).Nodup :=
  List.Nodup.sublist (srem_sublist l c i) h

theorem validCategory_ne_empty {c : String} (h : validCategory c) : c ≠ "" := by
  rcases h with h | h | h <;> subst h <;> decide

/-! ### Effect lemmas for the atomic store operations -/

theorem save_fail (s : Store) (a : StoredAsset) (oc : Option String) :
    saveAssetAtomic s a oc false = (false, s) := by
  cases oc <;> simp [saveAssetAtomic]

theorem save_ok_fst (s : Store) (a : StoredAsset) (oc : Option String) :
    (saveAssetAtomic s a oc true).1 = true := by
  cases oc with
  | none => simp [saveAssetAtomic]
  | some c => by_cases h : c ≠ "" ∧ c ≠ a.category <;> simp [saveAssetAtomic, h]

theorem save_ok_metadata (s : Store) (a : StoredAsset) (oc : Option String) :
    (saveAssetAtomic s a oc true).2.metadata = alSet s.metadata a.id a := by
  cases oc with
  | none => simp [saveAssetAtomic]
  | some c => by_cases h : c ≠ "" ∧ c ≠ a.category <;> simp [saveAssetAtomic, h]

theorem save_ok_globalIdx (s : Store) (a : StoredAsset) (oc : Option String) :
    (saveAssetAtomic s a oc true).2.globalIdx =
      alSet s.globalIdx a.id (makeIndexEntry a) := by
  cases oc with
  | none => simp [saveAssetAtomic]
  | some c => by_cases h : c ≠ "" ∧ c ≠ a.category <;> simp [saveAssetAtomic, h]

theorem save_ok_catIdx_none (s : Store) (a : StoredAsset) :
    (saveAssetAtomic s a none true).2.catIdx = sadd s.catIdx a.category a.id := by
  simp [saveAssetAtomic]

theorem save_ok_catIdx_same (s : Store) (a : StoredAsset) (c : String)
    (h : ¬(c ≠ "" ∧ c ≠ a.category)) :
    (saveAssetAtomic s a (some c) true).2.catIdx = sadd s.catIdx a.category a.id := by
  simp [saveAssetAtomic, h]

theorem save_ok_catIdx_diff (s : Store) (a : StoredAsset) (c : String)
    (h : c ≠ "" ∧ c ≠ a.category) :
    (saveAssetAtomic s a (some c) true).2.catIdx =
      sadd (srem s.catIdx c a.id) a.category a.id := by
  simp [saveAssetAtomic, h]

theorem save_ok_fields (s : Store) (a : StoredAsset) (oc : Option String) :
    (saveAssetAtomic s a oc true).2.changed = s.changed ∧
    (saveAssetAtomic s a oc true).2.syncStatus = s.syncStatus ∧
    (saveAssetAtomic s a oc true).2.lastSyncTime = s.lastSyncTime ∧
    (saveAssetAtomic s a oc true).2.lastCommitSha = s.lastCommitSha ∧
    (saveAssetAtomic s a oc true).2.syncedCount = s.syncedCount := by
  cases oc with
  | none => simp [saveAssetAtomic]
  | some c => by_cases h : c ≠ "" ∧ c ≠ a.category <;> simp [saveAssetAtomic, h]

theorem delete_not_found (s : Store) (i : String) (ok : Bool)
    (h : alGet s.metadata i = none) : deleteAssetAtomic s i ok = (false, s) := by
  simp [deleteAssetAtomic, h]

theorem delete_found_ok (s : Store) (i : String) (a : StoredAsset)
    (h : alGet s.metadata i = some a) :
    deleteAssetAtomic s i true =
      (true, { s with catIdx := srem s.catIdx a.category i,
                      metadata := alDel s.metadata i,
                      globalIdx := alDel s.globalIdx i }) := by
  simp [deleteAssetAtomic, h]

theorem delete_found_fail (s : Store) (i : String) (a : StoredAsset)
    (h : alGet s.metadata i = some a) :
    deleteAssetAtomic s i false = (false, s) := by
  simp [deleteAssetAtomic, h]

theorem delete_metadata_other (s : Store) (i x : String) (ok : Bool) (h : x ≠ i) :
    alGet (deleteAssetAtomic s i ok).2.metadata x = alGet s.metadata x := by
  cases hm : alGet s.metadata i with
  | none => rw [delete_not_found s i ok hm]
  | some a =>
    cases ok with
    | false => rw [delete_found_fail s i a hm]
    | true => rw [delete_found_ok s i a hm]; exact alGet_alDel_other _ _ _ h

theorem delete_metadata_self (s : Store) (i : String) (a : StoredAsset)
    (h : alGet s.metadata i = some a) :
    alGet (deleteAssetAtomic s i true).2.metadata i = none := by
  rw [delete_found_ok s i a h]
  exact alGet_alDel_self _ _

theorem shape_save_none (s : Store) (a : StoredAsset)
    (hcons : Consistent s) (hprev : alGet s.metadata a.id = none) :
    SaveCatShape s a (sadd s.catIdx a.category a.id) := by
  intro c x
  rw [mem_sadd]
  constructor
  · rintro (h | h)
    · rw [Prod.mk.injEq] at h
      exact Or.inl h
    · refine Or.inr ⟨h, ?_⟩
      intro hx
      rcases (hcons.cat_iff c x).mp h with ⟨r, hr, _⟩
      rw [hx, hprev] at hr
      exact absurd hr (by simp)
  · rintro (⟨hc, hx⟩ | ⟨h, _⟩)
    · exact Or.inl (by rw [hc, hx])
    · exact Or.inr h

theorem shape_save_same (s : Store) (a : StoredAsset) (e : StoredAsset)
    (hcons : Consistent s) (hprev : alGet s.metadata a.id = some e)
    (hsame : e.category = a.category) :
    SaveCatShape s a (sadd s.catIdx a.category a.id) := by
  intro c x
  rw [mem_sadd]
  constructor
  · rintro (h | h)
    · rw [Prod.mk.injEq] at h
      exact Or.inl h
    · by_cases hx : x = a.id
      · rcases (hcons.cat_iff c x).mp h with ⟨r, hr, hcr⟩
        rw [hx, hprev] at hr
        cases hr
        exact Or.inl ⟨by rw [hcr, hsame], hx⟩
      · exact Or.inr ⟨h, hx⟩
  · rintro (⟨hc, hx⟩ | ⟨h, _⟩)
    · exact Or.inl (by rw [hc, hx])
    · exact Or.inr h

theorem shape_save_diff (s : Store) (a : StoredAsset) (e : StoredAsset)
    (hcons : Consistent s) (hprev : alGet s.metadata a.id = some e) :
    SaveCatShape s a (sadd (srem s.catIdx e.category a.id) a.category a.id) := by
  intro c x
  rw [mem_sadd, mem_srem]
  constructor
  · rintro (h | ⟨h, hne⟩)
    · rw [Prod.mk.injEq] at h
      exact Or.inl h
    · by_cases hx : x = a.id
      · rcases (hcons.cat_iff c x).mp h with ⟨r, hr, hcr⟩
        rw [hx, hprev] at hr
        cases hr
        exact absurd (by rw [hcr, hx]) hne
      · exact Or.inr ⟨h, hx⟩
  · rintro (⟨hc, hx⟩ | ⟨h, hx⟩)
    · exact Or.inl (by rw [hc, hx])
    · exact Or.inr ⟨h, fun hp => hx (congrArg Prod.snd hp)⟩

/-- Consistency is rebuilt by a save whose category index has the
`SaveCatShape` form. -/
theorem consistent_of_parts (s' s : Store) (a : StoredAsset)
    (hmeta : s'.metadata = alSet s.metadata a.id a)
    (hglob : s'.globalIdx = alSet s.globalIdx a.id (makeIndexEntry a))
    (hci : SaveCatShape s a s'.catIdx)
    (hcons : Consistent s) : Consistent s' := by
  constructor
  · intro x
    by_cases hx : x = a.id
    · subst hx
      rw [hmeta, hglob, alGet_alSet_self, alGet_alSet_self]
      simp
    · rw [hmeta, hglob, alGet_alSet_other _ _ _ _ hx, alGet_alSet_other _ _ _ _ hx]
      exact hcons.global_iff x
  · intro c x
    rw [hci c x, hmeta]
    by_cases hx : x = a.id
    · subst hx
      rw [alGet_alSet_self]
      constructor
      · rintro (⟨hc, _⟩ | ⟨_, hx⟩)
        · exact ⟨a, rfl, hc⟩
        · exact absurd rfl hx
      · rintro ⟨r, hr, hcr⟩
        cases hr
        exact Or.inl ⟨hcr, rfl⟩
    · rw [alGet_alSet_other _ _ _ _ hx]
      constructor
      · rintro (⟨_, hxa⟩ | ⟨h, _⟩)
        · exact absurd hxa hx
        · exact (hcons.cat_iff c x).mp h
      · intro h
        exact Or.inr ⟨(hcons.cat_iff c x).mpr h, hx⟩

theorem saveAssetAtomic_preserves (s : Store) (a : StoredAsset)
    (hwf : WF s) (hcons : Consistent s) (hscat : StoreCatsValid s)
    (hacat : validCategory a.category) :
    WF (saveAssetAtomic s a ((alGet s.metadata a.id).map StoredAsset.category) true).2 ∧
    Consistent (saveAssetAtomic s a ((alGet s.metadata a.id).map StoredAsset.category) true).2 ∧
    StoreCatsValid (saveAssetAtomic s a ((alGet s.metadata a.id).map StoredAsset.category) true).2 := by
  set oc := (alGet s.metadata a.id).map StoredAsset.category with hoc
  set s' := (saveAssetAtomic s a oc true).2 with hs'
  have hmeta : s'.metadata = alSet s.metadata a.id a := save_ok_metadata s a oc
  have hglob : s'.globalIdx = alSet s.globalIdx a.id (makeIndexEntry a) :=
    save_ok_globalIdx s a oc
  have hshape : SaveCatShape s a s'.catIdx ∧ s'.catIdx.Nodup := by
    cases hprev : alGet s.metadata a.id with
    | none =>
      have hocn : oc = none := by rw [hoc, hprev]; rfl
      have hc : s'.catIdx = sadd s.catIdx a.category a.id := by
        rw [hs', hocn, save_ok_catIdx_none]
      rw [hc]
      exact ⟨shape_save_none s a hcons hprev, nodup_sadd _ _ _ hwf.cat_nodup⟩
    | some e =>
      have hoce : oc = some e.category := by rw [hoc, hprev]; rfl
      by_cases hguard : e.category ≠ "" ∧ e.category ≠ a.category
      · have hc : s'.catIdx = sadd (srem s.catIdx e.category a.id) a.category a.id := by
          rw [hs', hoce, save_ok_catIdx_diff s a e.category hguard]
        rw [hc]
        exact ⟨shape_save_diff s a e hcons hprev,
               nodup_sadd _ _ _ (nodup_srem _ _ _ hwf.cat_nodup)⟩
      · have hsame : e.category = a.category := by
          rcases Decidable.not_and_iff_or_not.mp hguard with h | h
          · exact absurd (validCategory_ne_empty (hscat a.id e hprev)) h
          · exact Decidable.not_not.mp h
        have hc : s'.catIdx = sadd s.catIdx a.category a.id := by
          rw [hs', hoce, save_ok_catIdx_same s a e.category hguard]
        rw [hc]
        exact ⟨shape_save_same s a e hcons hprev hsame, nodup_sadd _ _ _ hwf.cat_nodup⟩
  refine ⟨⟨?_, ?_, hshape.2⟩, consistent_of_parts s' s a hmeta hglob hshape.1 hcons, ?_⟩
  · rw [hmeta]; exact nodup_keys_alSet _ _ _ hwf.meta_nodup
  · rw [hglob]; exact nodup_keys_alSet _ _ _ hwf.global_nodup
  · intro x r hr
    by_cases hx : x = a.id
    · subst hx
      rw [hmeta, alGet_alSet_self] at hr
      cases hr
      exact hacat
    · rw [hmeta, alGet_alSet_other _ _ _ _ hx] at hr
      exact hscat x r hr

theorem deleteAssetAtomic_preserves (s : Store) (i : String) (ok : Bool)
    (hwf : WF s) (hcons : Consistent s) (hscat : StoreCatsValid s) :
    WF (deleteAssetAtomic s i ok).2 ∧
    Consistent (deleteAssetAtomic s i ok).2 ∧
    StoreCatsValid (deleteAssetAtomic s i ok).2 := by
  cases hm : alGet s.metadata i with
  | none => rw [delete_not_found s i ok hm]; exact ⟨hwf, hcons, hscat⟩
  | some a =>
    cases ok with
    | false => rw [delete_found_fail s i a hm]; exact ⟨hwf, hcons, hscat⟩
    | true =>
      rw [delete_found_ok s i a hm]
      refine ⟨⟨?_, ?_, ?_⟩, ⟨?_, ?_⟩, ?_⟩
      · exact nodup_keys_alDel _ _ hwf.meta_nodup
      · exact nodup_keys_alDel _ _ hwf.global_nodup
      · exact nodup_srem _ _ _ hwf.cat_nodup
      · intro x
        by_cases hx : x = i
        · subst hx
          rw [show alGet (alDel s.globalIdx x) x = none from alGet_alDel_self _ _,
              show alGet (alDel s.metadata x) x = none from alGet_alDel_self _ _]
          exact Iff.rfl
        · rw [alGet_alDel_other _ _ _ hx, alGet_alDel_other _ _ _ hx]
          exact hcons.global_iff x
      · intro c x
        rw [mem_srem]
        by_cases hx : x = i
        · subst hx
          rw [show alGet (alDel s.metadata x) x = none from alGet_alDel_self _ _]
          constructor
          · rintro ⟨hmem, hne⟩
            rcases (hcons.cat_iff c x).mp hmem with ⟨r, hr, hcr⟩
            rw [hm] at hr
            cases hr
            exact absurd (by rw [hcr]) hne
          · rintro ⟨r, hr, _⟩
            exact absurd hr (by simp)
        · rw [alGet_alDel_other _ _ _ hx]
          constructor
          · rintro ⟨hmem, _⟩
            exact (hcons.cat_iff c x).mp hmem
          · intro h
            exact ⟨(hcons.cat_iff c x).mpr h, fun hp => hx (congrArg Prod.snd hp)⟩
      · intro x r hr
        by_cases hx : x = i
        · subst hx
          rw [show alGet (alDel s.metadata x) x = none from alGet_alDel_self _ _] at hr
          exact absurd hr (by simp)
        · rw [alGet_alDel_other _ _ _ hx] at hr
          exact hscat x r hr

theorem delete_fields (s : Store) (i : String) (ok : Bool) :
    (deleteAssetAtomic s i ok).2.changed = s.changed ∧
    (deleteAssetAtomic s i ok).2.syncStatus = s.syncStatus ∧
    (deleteAssetAtomic s i ok).2.lastSyncTime = s.lastSyncTime ∧
    (deleteAssetAtomic s i ok).2.lastCommitSha = s.lastCommitSha ∧
    (deleteAssetAtomic s i ok).2.syncedCount = s.syncedCount := by
  cases hm : alGet s.metadata i with
  | none => rw [delete_not_found s i ok hm]; exact ⟨rfl, rfl, rfl, rfl, rfl⟩
  | some a =>
    cases ok with
    | false => rw [delete_found_fail s i a hm]; exact ⟨rfl, rfl, rfl, rfl, rfl⟩
    | true => rw [delete_found_ok s i a hm]; exact ⟨rfl, rfl, rfl, rfl, rfl⟩

/-! ### Per-iteration case lemmas for the sync loop -/

theorem processAsset_skip (ex : List (String × StoredAsset)) (ids : List String)
    (sOk : String → Bool) (acc : Store × SyncStats) (a : Asset)
    (h : shouldUpdateAsset a (alGet ex a.id) = false) :
    processAsset ex ids sOk acc a = acc := by
  simp [processAsset, h]

theorem processAsset_write_ok (ex : List (String × StoredAsset)) (ids : List String)
    (sOk : String → Bool) (s : Store) (st : SyncStats) (a : Asset)
    (h : shouldUpdateAsset a (alGet ex a.id) = true) (hok : sOk a.id = true) :
    processAsset ex ids sOk (s, st) a =
      (addChangedAsset
        (saveAssetAtomic s a.toStoredAsset ((alGet ex a.id).map StoredAsset.category) true).2
        a.id,
       if a.id ∈ ids then { st with updated := st.updated + 1 }
       else { st with created := st.created + 1 }) := by
  simp [processAsset, h, hok, save_ok_fst]

theorem processAsset_write_fail (ex : List (String × StoredAsset)) (ids : List String)
    (sOk : String → Bool) (s : Store) (st : SyncStats) (a : Asset)
    (h : shouldUpdateAsset a (alGet ex a.id) = true) (hok : sOk a.id = false) :
    processAsset ex ids sOk (s, st) a =
      (s, { st with failed := st.failed + 1,
                    errors := st.errors ++ ["Failed to save asset: " ++ a.id] }) := by
  simp [processAsset, h, hok, save_fail]

theorem loop_changed (ex : List (String × StoredAsset)) (ids : List String)
    (sOk : String → Bool) :
    ∀ (assets : List Asset) (s : Store) (st : SyncStats),
      (assets.foldl (processAsset ex ids sOk) (s, st)).1.changed =
        s.changed ++ changedList ex sOk assets := by
  intro assets
  induction assets with
  | nil => intro s st; simp [changedList]
  | cons a rest ih =>
    intro s st
    rw [List.foldl_cons]
    cases hdec : shouldUpdateAsset a (alGet ex a.id) with
    | false =>
      rw [processAsset_skip ex ids sOk (s, st) a hdec, ih]
      simp [changedList, List.filter_cons, hdec]
    | true =>
      cases hok : sOk a.id with
      | false =>
        rw [processAsset_write_fail ex ids sOk s st a hdec hok, ih]
        simp [changedList, List.filter_cons, hdec, hok]
      | true =>
        rw [processAsset_write_ok ex ids sOk s st a hdec hok, ih]
        have hch : (addChangedAsset
            (saveAssetAtomic s a.toStoredAsset
              ((alGet ex a.id).map StoredAsset.category) true).2 a.id).changed =
            s.changed ++ [a.id] := by
          show (saveAssetAtomic s a.toStoredAsset _ true).2.changed ++ [a.id] =
            s.changed ++ [a.id]
          rw [(save_ok_fields s a.toStoredAsset _).1]
        rw [hch]
        simp [changedList, List.filter_cons, hdec, hok]

theorem loop_fields (ex : List (String × StoredAsset)) (ids : List String)
    (sOk : String → Bool) :
    ∀ (assets : List Asset) (s : Store) (st : SyncStats),
      (assets.foldl (processAsset ex ids sOk) (s, st)).1.syncStatus = s.syncStatus ∧
      (assets.foldl (processAsset ex ids sOk) (s, st)).1.lastSyncTime = s.lastSyncTime ∧
      (assets.foldl (processAsset ex ids sOk) (s, st)).1.lastCommitSha = s.lastCommitSha ∧
      (assets.foldl (processAsset ex ids sOk) (s, st)).1.syncedCount = s.syncedCount := by
  intro assets
  induction assets with
  | nil => intro s st; exact ⟨rfl, rfl, rfl, rfl⟩
  | cons a rest ih =>
    intro s st
    rw [List.foldl_cons]
    cases hdec : shouldUpdateAsset a (alGet ex a.id) with
    | false => rw [processAsset_skip ex ids sOk (s, st) a hdec]; exact ih s st
    | true =>
      cases hok : sOk a.id with
      | false => rw [processAsset_write_fail ex ids sOk s st a hdec hok]; exact ih s _
      | true =>
        rw [processAsset_write_ok ex ids sOk s st a hdec hok]
        have hf := save_ok_fields s a.toStoredAsset ((alGet ex a.id).map StoredAsset.category)
        rcases ih (addChangedAsset
            (saveAssetAtomic s a.toStoredAsset
              ((alGet ex a.id).map StoredAsset.category) true).2 a.id) _ with
          ⟨h1, h2, h3, h4⟩
        rw [h1, h2, h3, h4]
        exact ⟨hf.2.1, hf.2.2.1, hf.2.2.2.1, hf.2.2.2.2⟩

theorem processAsset_metadata_other (ex : List (String × StoredAsset)) (ids : List String)
    (sOk : String → Bool) (s : Store) (st : SyncStats) (a : Asset) (x : String)
    (hx : x ≠ a.id) :
    alGet (processAsset ex ids sOk (s, st) a).1.metadata x = alGet s.metadata x := by
  cases hdec : shouldUpdateAsset a (alGet ex a.id) with
  | false => rw [processAsset_skip ex ids sOk (s, st) a hdec]
  | true =>
    cases hok : sOk a.id with
    | false => rw [processAsset_write_fail ex ids sOk s st a hdec hok]
    | true =>
      rw [processAsset_write_ok ex ids sOk s st a hdec hok]
      show alGet (saveAssetAtomic s a.toStoredAsset _ true).2.metadata x = alGet s.metadata x
      rw [save_ok_metadata]
      exact alGet_alSet_other _ _ _ _ (by simpa [Asset.toStoredAsset] using hx)

theorem loop_metadata_untouched (ex : List (String × StoredAsset)) (ids : List String)
    (sOk : String → Bool) :
    ∀ (assets : List Asset) (s : Store) (st : SyncStats) (x : String),
      x ∉ assets.map Asset.id →
      alGet (assets.foldl (processAsset ex ids sOk) (s, st)).1.metadata x =
        alGet s.metadata x := by
  intro assets
  induction assets with
  | nil => intro s st x _; rfl
  | cons a rest ih =>
    intro s st x hx
    rw [List.map_cons, List.mem_cons] at hx
    push_neg at hx
    rw [List.foldl_cons]
    have hstep : ∀ st2 : SyncStats,
        alGet (processAsset ex ids sOk (s, st) a).1.metadata x = alGet s.metadata x :=
      fun _ => processAsset_metadata_other ex ids sOk s st a x hx.1
    rcases hpa : processAsset ex ids sOk (s, st) a with ⟨s1, st1⟩
    have := hstep st
    rw [hpa] at this
    rw [ih s1 st1 x hx.2, this]

/-- Metadata after the per-asset loop, for distinct incoming ids and
all-successful saves: each incoming id holds the freshly stored record
when the snapshot rule fired, and keeps its snapshot value otherwise. -/
theorem loop_metadata_incoming (ex : List (String × StoredAsset)) (ids : List String)
    (sOk : String → Bool) (hsOk : ∀ i, sOk i = true) :
    ∀ (assets : List Asset) (s : Store) (st : SyncStats),
      (assets.map Asset.id).Nodup →
      (∀ a ∈ assets, alGet s.metadata a.id = alGet ex a.id) →
      ∀ a ∈ assets,
        alGet (assets.foldl (processAsset ex ids sOk) (s, st)).1.metadata a.id =
          if shouldUpdateAsset a (alGet ex a.id) then some a.toStoredAsset
          else alGet ex a.id := by
  intro assets
  induction assets with
  | nil => intro s st _ _ a ha; exact absurd ha (by simp)
  | cons b rest ih =>
    intro s st hnd hsnap a ha
    rw [List.map_cons, List.nodup_cons] at hnd
    rw [List.foldl_cons]
    rcases List.mem_cons.mp ha with rfl | hmem
    · -- the asset processed at this step; the rest of the loop leaves its id alone
      cases hdec : shouldUpdateAsset a (alGet ex a.id) with
      | false =>
        rw [processAsset_skip ex ids sOk (s, st) a hdec, if_neg (by simp [hdec]),
            loop_metadata_untouched ex ids sOk rest s st a.id hnd.1]
        exact hsnap a (List.mem_cons_self a rest)
      | true =>
        rw [processAsset_write_ok ex ids sOk s st a hdec (hsOk a.id), if_pos rfl]
        rw [loop_metadata_untouched ex ids sOk rest _ _ a.id hnd.1]
        show alGet (saveAssetAtomic s a.toStoredAsset _ true).2.metadata a.id =
          some a.toStoredAsset
        rw [save_ok_metadata]
        exact alGet_alSet_self _ _ _
    · -- an asset processed later; apply the induction hypothesis
      have hbne : a.id ≠ b.id := by
        intro h
        exact hnd.1 (h ▸ List.mem_map_of_mem Asset.id hmem)
      rcases hpa : processAsset ex ids sOk (s, st) b with ⟨s1, st1⟩
      have hother : alGet s1.metadata a.id = alGet s.metadata a.id := by
        have := processAsset_metadata_other ex ids sOk s st b a.id hbne
        rw [hpa] at this
        exact this
      refine ih s1 st1 hnd.2 ?_ a hmem
      intro c hc
      by_cases hcb : c.id = b.id
      · rw [hcb]
        have := processAsset_metadata_other ex ids sOk s st b b.id
        -- c.id = b.id: the saved record may have replaced the snapshot value,
        -- but nodup forbids b.id ∈ rest ids, so c ∈ rest gives a contradiction
        exact absurd (hcb ▸ List.mem_map_of_mem Asset.id hc) hnd.1
      · have := processAsset_metadata_other ex ids sOk s st b c.id hcb
        rw [hpa] at this
        rw [this]
        exact hsnap c (List.mem_cons_of_mem b hc)

/-- The loop never removes a metadata record. -/
theorem loop_metadata_isSome (ex : List (String × StoredAsset)) (ids : List String)
    (sOk : String → Bool) :
    ∀ (assets : List Asset) (s : Store) (st : SyncStats) (x : String),
      (alGet s.metadata x).isSome →
      (alGet (assets.foldl (processAsset ex ids sOk) (s, st)).1.metadata x).isSome := by
  intro assets
  induction assets with
  | nil => intro s st x h; exact h
  | cons a rest ih =>
    intro s st x h
    rw [List.foldl_cons]
    rcases hpa : processAsset ex ids sOk (s, st) a with ⟨s1, st1⟩
    refine ih s1 st1 x ?_
    by_cases hx : x = a.id
    · subst hx
      cases hdec : shouldUpdateAsset a (alGet ex a.id) with
      | false =>
        rw [processAsset_skip ex ids sOk (s, st) a hdec] at hpa
        cases hpa
        exact h
      | true =>
        cases hok : sOk a.id with
        | false =>
          rw [processAsset_write_fail ex ids sOk s st a hdec hok] at hpa
          cases hpa
          exact h
        | true =>
          rw [processAsset_write_ok ex ids sOk s st a hdec hok] at hpa
          have : s1.metadata =
              alSet s.metadata a.toStoredAsset.id a.toStoredAsset := by
            rw [show s1 = (addChangedAsset
              (saveAssetAtomic s a.toStoredAsset
                ((alGet ex a.id).map StoredAsset.category) true).2 a.id)
              from congrArg Prod.fst hpa.symm]
            exact save_ok_metadata s a.toStoredAsset _
          rw [this, show a.toStoredAsset.id = a.id from rfl, alGet_alSet_self]
          rfl
    · have := processAsset_metadata_other ex ids sOk s st a x hx
      rw [hpa] at this
      rw [this]
      exact h

theorem loop_skip_all (ex : List (String × StoredAsset)) (ids : List String)
    (sOk : String → Bool) :
    ∀ (assets : List Asset) (s : Store) (st : SyncStats),
      (∀ a ∈ assets, shouldUpdateAsset a (alGet ex a.id) = false) →
      assets.foldl (processAsset ex ids sOk) (s, st) = (s, st) := by
  intro assets
  induction assets with
  | nil => intro s st _; rfl
  | cons a rest ih =>
    intro s st hall
    rw [List.foldl_cons, processAsset_skip ex ids sOk (s, st) a
      (hall a (List.mem_cons_self a rest))]
    exact ih s st (fun b hb => hall b (List.mem_cons_of_mem a hb))

/-- Invariant preservation across the per-asset loop (snapshot-consistent
starting state, distinct incoming ids, validated categories). -/
theorem loop_invariants (ex : List (String × StoredAsset)) (ids : List String)
    (sOk : String → Bool) :
    ∀ (assets : List Asset) (s : Store) (st : SyncStats),
      (assets.map Asset.id).Nodup →
      (∀ a ∈ assets, alGet s.metadata a.id = alGet ex a.id) →
      WF s → Consistent s → StoreCatsValid s →
      (∀ a ∈ assets, validCategory a.manifest.category) →
      WF (assets.foldl (processAsset ex ids sOk) (s, st)).1 ∧
      Consistent (assets.foldl (processAsset ex ids sOk) (s, st)).1 ∧
      StoreCatsValid (assets.foldl (processAsset ex ids sOk) (s, st)).1 := by
  intro assets
  induction assets with
  | nil => intro s st _ _ hwf hcons hscat _; exact ⟨hwf, hcons, hscat⟩
  | cons a rest ih =>
    intro s st hnd hsnap hwf hcons hscat hcats
    rw [List.map_cons, List.nodup_cons] at hnd
    rw [List.foldl_cons]
    cases hdec : shouldUpdateAsset a (alGet ex a.id) with
    | false =>
      rw [processAsset_skip ex ids sOk (s, st) a hdec]
      exact ih s st hnd.2 (fun b hb => hsnap b (List.mem_cons_of_mem a hb))
        hwf hcons hscat (fun b hb => hcats b (List.mem_cons_of_mem a hb))
    | true =>
      cases hok : sOk a.id with
      | false =>
        rw [processAsset_write_fail ex ids sOk s st a hdec hok]
        exact ih s _ hnd.2 (fun b hb => hsnap b (List.mem_cons_of_mem a hb))
          hwf hcons hscat (fun b hb => hcats b (List.mem_cons_of_mem a hb))
      | true =>
        rw [processAsset_write_ok ex ids sOk s st a hdec hok]
        have hsnapa : (alGet ex a.id).map StoredAsset.category =
            (alGet s.metadata a.toStoredAsset.id).map StoredAsset.category := by
          rw [show a.toStoredAsset.id = a.id from rfl,
              hsnap a (List.mem_cons_self a rest)]
        have hkey := saveAssetAtomic_preserves s a.toStoredAsset hwf hcons hscat
          (hcats a (List.mem_cons_self a rest))
        rw [← hsnapa] at hkey
        set s1 := (saveAssetAtomic s a.toStoredAsset
          ((alGet ex a.id).map StoredAsset.category) true).2 with hs1
        have hwf1 : WF (addChangedAsset s1 a.id) := ⟨hkey.1.1, hkey.1.2, hkey.1.3⟩
        have hcons1 : Consistent (addChangedAsset s1 a.id) :=
          ⟨hkey.2.1.global_iff, hkey.2.1.cat_iff⟩
        have hscat1 : StoreCatsValid (addChangedAsset s1 a.id) := hkey.2.2
        refine ih (addChangedAsset s1 a.id) _ hnd.2 ?_ hwf1 hcons1 hscat1
          (fun b hb => hcats b (List.mem_cons_of_mem a hb))
        intro b hb
        have hbne : b.id ≠ a.id := by
          intro h
          exact hnd.1 (h ▸ List.mem_map_of_mem Asset.id hb)
        have : alGet (addChangedAsset s1 a.id).metadata b.id = alGet s1.metadata b.id := rfl
        rw [this, hs1, save_ok_metadata,
            alGet_alSet_other _ _ _ _ (by simpa [Asset.toStoredAsset] using hbne)]
        exact hsnap b (List.mem_cons_of_mem a hb)

/-! ### The deletion phase -/

theorem delPhase_invariants (dOk : String → Bool) :
    ∀ (L : List String) (s : Store),
      WF s → Consistent s → StoreCatsValid s →
      WF (L.foldl (fun t i => (deleteAssetAtomic t i (dOk i)).2) s) ∧
      Consistent (L.foldl (fun t i => (deleteAssetAtomic t i (dOk i)).2) s) ∧
      StoreCatsValid (L.foldl (fun t i => (deleteAssetAtomic t i (dOk i)).2) s) := by
  intro L
  induction L with
  | nil => intro s hwf hcons hscat; exact ⟨hwf, hcons, hscat⟩
  | cons i rest ih =>
    intro s hwf hcons hscat
    rw [List.foldl_cons]
    have h := deleteAssetAtomic_preserves s i (dOk i) hwf hcons hscat
    exact ih _ h.1 h.2.1 h.2.2

theorem delPhase_fields (dOk : String → Bool) :
    ∀ (L : List String) (s : Store),
      (L.foldl (fun t i => (deleteAssetAtomic t i (dOk i)).2) s).changed = s.changed ∧
      (L.foldl (fun t i => (deleteAssetAtomic t i (dOk i)).2) s).syncStatus = s.syncStatus ∧
      (L.foldl (fun t i => (deleteAssetAtomic t i (dOk i)).2) s).lastSyncTime = s.lastSyncTime ∧
      (L.foldl (fun t i => (deleteAssetAtomic t i (dOk i)).2) s).syncedCount = s.syncedCount := by
  intro L
  induction L with
  | nil => intro s; exact ⟨rfl, rfl, rfl, rfl⟩
  | cons i rest ih =>
    intro s
    rw [List.foldl_cons]
    rcases ih (deleteAssetAtomic s i (dOk i)).2 with ⟨h1, h2, h3, h4⟩
    have hf := delete_fields s i (dOk i)
    exact ⟨h1.trans hf.1, h2.trans hf.2.1, h3.trans hf.2.2.1, h4.trans hf.2.2.2.2⟩

theorem delPhase_metadata_other (dOk : String → Bool) :
    ∀ (L : List String) (s : Store) (x : String), x ∉ L →
      alGet (L.foldl (fun t i => (deleteAssetAtomic t i (dOk i)).2) s).metadata x =
        alGet s.metadata x := by
  intro L
  induction L with
  | nil => intro s x _; rfl
  | cons i rest ih =>
    intro s x hx
    rw [List.mem_cons] at hx
    push_neg at hx
    rw [List.foldl_cons, ih _ x hx.2, delete_metadata_other s i x (dOk i) hx.1]

theorem delPhase_removes (dOk : String → Bool) (hdOk : ∀ i, dOk i = true) :
    ∀ (L : List String) (s : Store), L.Nodup →
      (∀ x ∈ L, (alGet s.metadata x).isSome) →
      ∀ x ∈ L,
        alGet (L.foldl (fun t i => (deleteAssetAtomic t i (dOk i)).2) s).metadata x = none := by
  intro L
  induction L with
  | nil => intro s _ _ x hx; exact absurd hx (by simp)
  | cons i rest ih =>
    intro s hnd hsome x hx
    rw [List.nodup_cons] at hnd
    rw [List.foldl_cons]
    have hisome := hsome i (List.mem_cons_self i rest)
    rcases Option.isSome_iff_exists.mp hisome with ⟨a, ha⟩
    rcases List.mem_cons.mp hx with rfl | hmem
    · rw [delPhase_metadata_other dOk rest _ x hnd.1, hdOk x]
      exact delete_metadata_self s x a ha
    · refine ih _ hnd.2 ?_ x hmem
      intro y hy
      have hyne : y ≠ i := fun h => hnd.1 (h ▸ hy)
      rw [delete_metadata_other s i y (dOk i) hyne]
      exact hsome y (List.mem_cons_of_mem i hy)

/-! ### Small bridging lemmas -/

theorem shouldUpdate_some_iff (a : Asset) (e : StoredAsset) :
    shouldUpdateAsset a (some e) = true ↔
      (e.githubSha ≠ a.githubSha ∨ e.version ≠ a.version) := by
  unfold shouldUpdateAsset
  by_cases h1 : e.githubSha = a.githubSha
  · by_cases h2 : e.version = a.version <;> simp [h1, h2]
  · simp [h1]

theorem shouldUpdate_toStored_false (a : Asset) :
    shouldUpdateAsset a (some a.toStoredAsset) = false := by
  simp [shouldUpdateAsset, Asset.toStoredAsset, Asset.version]

theorem shouldUpdate_false_elim (a : Asset) (ex : Option StoredAsset)
    (h : shouldUpdateAsset a ex = false) :
    ∃ e, ex = some e ∧ e.githubSha = a.githubSha ∧ e.version = a.version := by
  cases ex with
  | none => exact absurd h (by simp [shouldUpdateAsset])
  | some e =>
    refine ⟨e, rfl, ?_, ?_⟩
    · by_contra hne
      rw [(shouldUpdate_some_iff a e).mpr (Or.inl hne)] at h
      exact absurd h (by simp)
    · by_contra hne
      rw [(shouldUpdate_some_iff a e).mpr (Or.inr hne)] at h
      exact absurd h (by simp)

theorem wf_of_fields (s' s : Store) (hm : s'.metadata = s.metadata)
    (hc : s'.catIdx = s.catIdx) (hg : s'.globalIdx = s.globalIdx)
    (h : WF s) : WF s' := by
  constructor
  · rw [hm]; exact h.meta_nodup
  · rw [hg]; exact h.global_nodup
  · rw [hc]; exact h.cat_nodup

theorem consistent_of_fields (s' s : Store) (hm : s'.metadata = s.metadata)
    (hc : s'.catIdx = s.catIdx) (hg : s'.globalIdx = s.globalIdx)
    (h : Consistent s) : Consistent s' := by
  constructor
  · intro x; rw [hm, hg]; exact h.global_iff x
  · intro c x; rw [hm, hc]; exact h.cat_iff c x

theorem countEq_eq_zero {α : Type} [DecidableEq α] (l : List α) (a : α)
    (h : a ∉ l) : countEq l a = 0 := by
  induction l with
  | nil => rfl
  | cons b rest ih =>
    rw [List.mem_cons] at h
    push_neg at h
    have hne : ¬(b = a) := fun hb => h.1 hb.symm
    simp only [countEq, List.filter_cons, decide_eq_true_eq]
    rw [if_neg (by simpa using hne)]
    exact ih h.2

theorem countEq_eq_one {α : Type} [DecidableEq α] (l : List α) (a : α)
    (hnd : l.Nodup) (h : a ∈ l) : countEq l a = 1 := by
  induction l with
  | nil => exact absurd h (by simp)
  | cons b rest ih =>
    rw [List.nodup_cons] at hnd
    simp only [countEq, List.filter_cons, decide_eq_true_eq]
    rcases List.mem_cons.mp h with rfl | hmem
    · rw [if_pos (by simp)]
      have : countEq rest a = 0 := countEq_eq_zero rest a hnd.1
      simp only [countEq] at this
      simp [this]
    · have hne : ¬(b = a) := fun hb => hnd.1 (hb ▸ hmem)
      rw [if_neg (by simpa using hne)]
      exact ih hnd.2 hmem

theorem count_key_one {α : Type} (m : List (String × α)) (x : String) (v : α)
    (hnd : (m.map Prod.fst).Nodup) (h : alGet m x = some v) :
    countEq (m.map Prod.fst) x = 1 :=
  countEq_eq_one _ _ hnd ((alGet_isSome_iff m x).mp (by rw [h]; rfl))

theorem count_key_zero {α : Type} (m : List (String × α)) (x : String)
    (h : alGet m x = none) : countEq (m.map Prod.fst) x = 0 :=
  countEq_eq_zero _ _ ((alGet_eq_none_iff m x).mp h)

/-! ### Claim theorems -/

/-- Claim C2: during a full sync the engine writes an incoming asset to
the store exactly when no snapshot record exists for its id, or the
observed github sha differs, or the manifest version differs; when none
of the three conditions holds the asset is skipped and the store is left
untouched by that iteration. -/
theorem claim2_needs_write_rule (a : Asset) (ex : Option StoredAsset) :
    (shouldUpdateAsset a ex = true ↔
      (ex = none ∨ ∃ e, ex = some e ∧
        (e.githubSha ≠ a.githubSha ∨ e.version ≠ a.version)))
    ∧ (∀ (exm : List (String × StoredAsset)) (ids : List String) (sOk : String → Bool)
        (s : Store) (st : SyncStats),
        alGet exm a.id = ex → shouldUpdateAsset a ex = false →
        processAsset exm ids sOk (s, st) a = (s, st))
    ∧ (∀ (exm : List (String × StoredAsset)) (ids : List String) (sOk : String → Bool)
        (s : Store) (st : SyncStats),
        alGet exm a.id = ex → shouldUpdateAsset a ex = true → sOk a.id = true →
        alGet (processAsset exm ids sOk (s, st) a).1.metadata a.id =
          some a.toStoredAsset) := by
  refine ⟨?_, ?_, ?_⟩
  · cases ex with
    | none => simp [shouldUpdateAsset]
    | some e =>
      rw [shouldUpdate_some_iff]
      constructor
      · intro h; exact Or.inr ⟨e, rfl, h⟩
      · rintro (h | ⟨e2, he2, h⟩)
        · exact absurd h (by simp)
        · cases he2; exact h
  · intro exm ids sOk s st hsnap hfalse
    refine processAsset_skip exm ids sOk (s, st) a ?_
    rw [hsnap]; exact hfalse
  · intro exm ids sOk s st hsnap htrue hok
    rw [processAsset_write_ok exm ids sOk s st a (by rw [hsnap]; exact htrue) hok]
    show alGet (saveAssetAtomic s a.toStoredAsset _ true).2.metadata a.id =
      some a.toStoredAsset
    rw [save_ok_metadata]
    exact alGet_alSet_self _ _ _

/-- Claim C6: deleting an id with no stored record reports
failure-to-find (`False`) and performs no store mutation at all. -/
theorem claim6_delete_missing_noop (s : Store) (i : String) (ok : Bool)
    (h : alGet s.metadata i = none) :
    (deleteAssetAtomic s i ok).1 = false ∧ (deleteAssetAtomic s i ok).2 = s := by
  rw [delete_not_found s i ok h]
  exact ⟨rfl, rfl⟩

/-- Claim C8: incremental sync degrades to a full sync when no
`last_sync_time` exists; returns a zero-effect stats record touching
nothing when a time exists and no commits arrived since; and otherwise
falls back to a full `sync_from_github` pass. -/
theorem claim8_incremental_sync (s : Store) (env : SyncEnv) (now : Nat) :
    (s.lastSyncTime = none → incrementalSync s env now = syncFromGithub s env now)
    ∧ (∀ t, s.lastSyncTime = some t → env.commitsSince t = [] →
        incrementalSync s env now =
          (s, { totalProcessed := 0, created := 0, updated := 0,
                deleted := 0, failed := 0, errors := [] }))
    ∧ (∀ t, s.lastSyncTime = some t → env.commitsSince t ≠ [] →
        incrementalSync s env now = syncFromGithub s env now) := by
  refine ⟨?_, ?_, ?_⟩
  · intro h
    simp [incrementalSync, h]
  · intro t ht hc
    simp [incrementalSync, ht, hc]
  · intro t ht hc
    simp [incrementalSync, ht, List.isEmpty_iff, hc]

theorem claim2_witness :
    processAsset snapX [] (fun _ => true) (emptyStore, {}) toolAssetX =
      (emptyStore, {}) :=
  (claim2_needs_write_rule toolAssetX (some toolAssetX.toStoredAsset)).2.1
    snapX [] (fun _ => true) emptyStore {} (by decide) (by decide)

theorem claim6_witness :
    (deleteAssetAtomic emptyStore "x" true).1 = false ∧
    (deleteAssetAtomic emptyStore "x" true).2 = emptyStore :=
  claim6_delete_missing_noop emptyStore "x" true (by decide)

theorem claim8_witness :
    incrementalSync idleStore5 okEnv 9 =
      (idleStore5, { totalProcessed := 0, created := 0, updated := 0,
                     deleted := 0, failed := 0, errors := [] }) :=
  (claim8_incremental_sync idleStore5 okEnv 9).2.1 5 rfl rfl

/-- Claim C10: `_increment_version` is not total over schema-valid
semantic versions: a two-part version is returned unchanged, and a
three-part version whose patch carries a pre-release suffix — accepted
by `validate_version` — makes the `int` conversion raise a `ValueError`
that propagates uncaught out of `update_asset`. -/
theorem claim10_increment_version_partial :
    incrementVersion "1.2" = Except.ok "1.2"
    ∧ validVersion "1.2.3-beta" = true
    ∧ incrementVersion "1.2.3-beta" = Except.error "ValueError"
    ∧ updateAsset betaRepo emptyStore "x" callerManifestX "sha1" =
        Except.error "ValueError" := by
  refine ⟨rfl, by decide, rfl, rfl⟩

/-- After updating the file backing the first id-match, re-reading by id
returns the freshly written manifest (paths are unique in a repository
tree, so no earlier file can be affected). -/
theorem find_after_update (assetId : String) (md : Manifest) (newSha : String)
    (hmd : md.id = assetId) :
    ∀ (l : List Asset) (ex : Asset),
      l.find? (fun a => a.manifest.id == assetId) = some ex →
      (l.map Asset.githubPath).Nodup →
      (l.map (fun a => if a.githubPath == ex.githubPath
          then (⟨md, ex.githubPath, newSha⟩ : Asset) else a)).find?
        (fun a => a.manifest.id == assetId) = some ⟨md, ex.githubPath, newSha⟩ := by
  intro l
  induction l with
  | nil => intro ex h _; exact absurd h (by simp)
  | cons b rest ih =>
    intro ex hfind hnd
    rw [List.map_cons, List.nodup_cons] at hnd
    rw [List.map_cons]
    cases hb : (b.manifest.id == assetId) with
    | true =>
      have hexb : b = ex := by
        simp only [List.find?, hb] at hfind
        exact Option.some.inj hfind
      subst hexb
      rw [if_pos (by simp)]
      simp [List.find?, hmd]
    | false =>
      have hfind' : rest.find? (fun a => a.manifest.id == assetId) = some ex := by
        simp only [List.find?, hb] at hfind
        exact hfind
      have hexmem : ex ∈ rest := List.mem_of_find?_eq_some hfind'
      have hpath : ¬(b.githubPath = ex.githubPath) := fun h =>
        hnd.1 (h ▸ List.mem_map_of_mem Asset.githubPath hexmem)
      rw [if_neg (by simpa using hpath)]
      simp only [List.find?, hb]
      exact ih ex hfind' hnd.2

/-- Claim C5: `update_asset` on an asset whose existing repository
manifest is at version "1.2.3" writes back and stores version "1.2.4",
whatever version the caller supplied in the input manifest. -/
theorem claim5_update_autoincrements (gh : GitHub) (s : Store) (assetId : String)
    (m : Manifest) (newSha : String) (ex : Asset)
    (hfound : getAssetById gh assetId = some ex)
    (hver : ex.manifest.version = "1.2.3")
    (hid : m.id = assetId)
    (hpaths : (gh.files.map Asset.githubPath).Nodup) :
    ∃ gh2 s2, updateAsset gh s assetId m newSha = Except.ok (true, gh2, s2)
      ∧ (getAssetById gh2 assetId).map (fun a => a.manifest.version) = some "1.2.4"
      ∧ (alGet s2.metadata assetId).map StoredAsset.version = some "1.2.4" := by
  have hinc : incrementVersion ex.manifest.version = Except.ok "1.2.4" := by
    rw [hver]; rfl
  have hany : gh.files.any (fun a => a.githubPath == ex.githubPath) = true :=
    List.any_eq_true.mpr ⟨ex, List.mem_of_find?_eq_some hfound, by simp⟩
  have hsave : saveToGithub gh ex.githubPath { m with version := "1.2.4" } newSha =
      ⟨gh.files.map (fun a => if a.githubPath == ex.githubPath
        then ⟨{ m with version := "1.2.4" }, ex.githubPath, newSha⟩ else a)⟩ := by
    simp [saveToGithub, hany]
  have hfind2 : getAssetById
      (saveToGithub gh ex.githubPath { m with version := "1.2.4" } newSha) assetId =
      some ⟨{ m with version := "1.2.4" }, ex.githubPath, newSha⟩ := by
    rw [hsave]
    exact find_after_update assetId { m with version := "1.2.4" } newSha hid
      gh.files ex hfound hpaths
  refine ⟨saveToGithub gh ex.githubPath { m with version := "1.2.4" } newSha,
    (saveAssetAtomic s
      (Asset.toStoredAsset ⟨{ m with version := "1.2.4" }, ex.githubPath, newSha⟩)
      (some ex.manifest.category) true).2, ?_, ?_, ?_⟩
  · simp only [updateAsset, hfound, hinc, hfind2]
  · rw [hfind2]
    rfl
  · rw [save_ok_metadata]
    have hkey : (Asset.toStoredAsset
        ⟨{ m with version := "1.2.4" }, ex.githubPath, newSha⟩).id = assetId := hid
    rw [← hkey, alGet_alSet_self]
    rfl

theorem claim5_witness :
    ∃ gh2 s2,
      updateAsset semverRepo emptyStore "x" callerManifestX "sha1" =
        Except.ok (true, gh2, s2)
      ∧ (getAssetById gh2 "x").map (fun a => a.manifest.version) = some "1.2.4"
      ∧ (alGet s2.metadata "x").map StoredAsset.version = some "1.2.4" :=
  claim5_update_autoincrements semverRepo emptyStore "x" callerManifestX "sha1"
    ⟨⟨"x", "1.2.3", "tool", "n", "d"⟩, "tools/x/manifest.yaml", "sha0"⟩
    (by decide) rfl rfl (by decide)

/-- Claim C4 is wrong on the code (code bug): a run that completes with
one per-asset failure never writes "failed" — the status stays at the
"syncing" written at the start of the run — and a run aborted by an
escaping exception has its "failed" status immediately overwritten with
"idle" by the `finally` block, because `stats.failed == 0` there.  Only
the failure-free completed run matches the claim, ending "idle". -/
theorem claim4_status_bug :
    getSyncStatus (syncFromGithub emptyStore okEnv 0).1 = "idle"
    ∧ (syncFromGithub emptyStore failSaveEnv 0).2.failed = 1
    ∧ getSyncStatus (syncFromGithub emptyStore failSaveEnv 0).1 = "syncing"
    ∧ getSyncStatus (syncFromGithubAbort emptyStore 0) = "idle" := by
  refine ⟨by decide, by decide, by decide, by decide⟩

theorem mem_changedList_mem_githubIds (ex : List (String × StoredAsset))
    (sOk : String → Bool) (assets : List Asset) (x : String)
    (h : x ∈ changedList ex sOk assets) : x ∈ githubIds assets := by
  rcases List.mem_map.mp h with ⟨a, ha, rfl⟩
  exact List.mem_map_of_mem Asset.id (List.mem_of_mem_filter ha)

set_option maxRecDepth 4096 in
/-- Claim C9: during a full sync the ids appended to the changed queue
are exactly the ids of incoming assets that needed a write and whose
save succeeded (the created/updated ones); the run then trims the queue
to its last 1000 entries; ids deleted by the run are never appended. -/
theorem claim9_changed_queue (s : Store) (env : SyncEnv) (now : Nat) :
    (syncFromGithub s env now).1.changed =
      ltrim (s.changed ++ changedList s.metadata env.saveOk env.assets) 1000
    ∧ (∀ x, x ∈ syncDeletedIds (setSyncStatus s "syncing") env →
        x ∉ changedList s.metadata env.saveOk env.assets) := by
  constructor
  · have h1 : (delPhase env.delOk (syncDeletedIds (setSyncStatus s "syncing") env)
        (syncLoopRes (setSyncStatus s "syncing") env).1).changed =
        (syncLoopRes (setSyncStatus s "syncing") env).1.changed :=
      (delPhase_fields env.delOk (syncDeletedIds (setSyncStatus s "syncing") env)
        (syncLoopRes (setSyncStatus s "syncing") env).1).1
    have h2 : (syncLoopRes (setSyncStatus s "syncing") env).1.changed =
        s.changed ++ changedList s.metadata env.saveOk env.assets :=
      loop_changed (setSyncStatus s "syncing").metadata
        ((setSyncStatus s "syncing").metadata.map Prod.fst) env.saveOk env.assets
        (setSyncStatus s "syncing") { totalProcessed := env.assets.length }
    show ltrim (delPhase env.delOk (syncDeletedIds (setSyncStatus s "syncing") env)
      (syncLoopRes (setSyncStatus s "syncing") env).1).changed 1000 = _
    rw [h1, h2]
  · intro x hx hmem
    have hnotin : x ∉ githubIds env.assets := by
      have := (List.mem_filter.mp hx).2
      simpa using this
    exact hnotin (mem_changedList_mem_githubIds _ _ _ x hmem)

set_option maxRecDepth 4096 in
theorem claim9_witness :
    "d" ∉ changedList staleStoreD.metadata okEnv.saveOk okEnv.assets :=
  (claim9_changed_queue staleStoreD okEnv 0).2 "d" (by decide)

theorem consistent_empty : Consistent emptyStore := by
  constructor
  · intro x; exact Iff.rfl
  · intro c x
    simp [emptyStore, alGet]

theorem scat_empty : StoreCatsValid emptyStore := by
  intro x r hr
  exact absurd hr (by simp [emptyStore, alGet])

theorem wf_empty : WF emptyStore :=
  ⟨List.nodup_nil, List.nodup_nil, List.nodup_nil⟩

set_option maxRecDepth 4096 in
/-- The invariants of the post-run store, shared by the C1 and C7
arguments: the final store of a full sync keeps well-formedness and
consistency when the pre-state has them, incoming ids are distinct and
categories validated. -/
theorem sync_final_invariants (s : Store) (env : SyncEnv) (now : Nat)
    (hwf : WF s) (hcons : Consistent s) (hscat : StoreCatsValid s)
    (hacat : ∀ a ∈ env.assets, validCategory a.manifest.category)
    (hids : (env.assets.map Asset.id).Nodup) :
    WF (syncFromGithub s env now).1 ∧ Consistent (syncFromGithub s env now).1 ∧
    StoreCatsValid (syncFromGithub s env now).1 := by
  have hwf0 : WF (setSyncStatus s "syncing") := wf_of_fields _ s rfl rfl rfl hwf
  have hcons0 : Consistent (setSyncStatus s "syncing") :=
    consistent_of_fields _ s rfl rfl rfl hcons
  have hscat0 : StoreCatsValid (setSyncStatus s "syncing") := hscat
  have hloop : WF (syncLoopRes (setSyncStatus s "syncing") env).1 ∧
      Consistent (syncLoopRes (setSyncStatus s "syncing") env).1 ∧
      StoreCatsValid (syncLoopRes (setSyncStatus s "syncing") env).1 :=
    loop_invariants (setSyncStatus s "syncing").metadata
      ((setSyncStatus s "syncing").metadata.map Prod.fst) env.saveOk env.assets
      (setSyncStatus s "syncing") { totalProcessed := env.assets.length }
      hids (fun a _ => rfl) hwf0 hcons0 hscat0 hacat
  have hdel : WF (delPhase env.delOk (syncDeletedIds (setSyncStatus s "syncing") env)
        (syncLoopRes (setSyncStatus s "syncing") env).1) ∧
      Consistent (delPhase env.delOk (syncDeletedIds (setSyncStatus s "syncing") env)
        (syncLoopRes (setSyncStatus s "syncing") env).1) ∧
      StoreCatsValid (delPhase env.delOk (syncDeletedIds (setSyncStatus s "syncing") env)
        (syncLoopRes (setSyncStatus s "syncing") env).1) :=
    delPhase_invariants env.delOk (syncDeletedIds (setSyncStatus s "syncing") env)
      (syncLoopRes (setSyncStatus s "syncing") env).1 hloop.1 hloop.2.1 hloop.2.2
  refine ⟨wf_of_fields (syncFromGithub s env now).1
      (delPhase env.delOk (syncDeletedIds (setSyncStatus s "syncing") env)
        (syncLoopRes (setSyncStatus s "syncing") env).1) rfl rfl rfl hdel.1,
    consistent_of_fields (syncFromGithub s env now).1
      (delPhase env.delOk (syncDeletedIds (setSyncStatus s "syncing") env)
        (syncLoopRes (setSyncStatus s "syncing") env).1) rfl rfl rfl hdel.2.1,
    ?_⟩
  intro x r hr
  exact hdel.2.2 x r hr

set_option maxRecDepth 4096 in
/-- Claim C1 (amended): provided the pre-run store is Redis-representable
and satisfies the index-consistency invariant with validated categories,
the incoming ids are pairwise distinct, and every per-asset save and
delete succeeds, then after the full sync every stored record has
exactly one global-index entry under its id and its id appears exactly
once in exactly the category index matching the record, while ids with
no stored record appear in neither structure. -/
theorem claim1_index_bijection (s : Store) (env : SyncEnv) (now : Nat)
    (hwf : WF s) (hcons : Consistent s) (hscat : StoreCatsValid s)
    (hacat : ∀ a ∈ env.assets, validCategory a.manifest.category)
    (hids : (env.assets.map Asset.id).Nodup)
    (hsave : ∀ i, env.saveOk i = true) (hdel : ∀ i, env.delOk i = true) :
    (∀ x r, alGet (syncFromGithub s env now).1.metadata x = some r →
      countEq ((syncFromGithub s env now).1.globalIdx.map Prod.fst) x = 1
      ∧ countEq (syncFromGithub s env now).1.catIdx (r.category, x) = 1
      ∧ ∀ c, c ≠ r.category → countEq (syncFromGithub s env now).1.catIdx (c, x) = 0)
    ∧ (∀ x, alGet (syncFromGithub s env now).1.metadata x = none →
      countEq ((syncFromGithub s env now).1.globalIdx.map Prod.fst) x = 0
      ∧ ∀ c, countEq (syncFromGithub s env now).1.catIdx (c, x) = 0) := by
  obtain ⟨hFwf, hFcons, _⟩ :=
    sync_final_invariants s env now hwf hcons hscat hacat hids
  constructor
  · intro x r hr
    refine ⟨?_, ?_, ?_⟩
    · have hg : ((alGet (syncFromGithub s env now).1.globalIdx x)).isSome :=
        (hFcons.global_iff x).mpr (by rw [hr]; rfl)
      rcases Option.isSome_iff_exists.mp hg with ⟨v, hv⟩
      exact count_key_one _ x v hFwf.global_nodup hv
    · exact countEq_eq_one _ _ hFwf.cat_nodup
        ((hFcons.cat_iff r.category x).mpr ⟨r, hr, rfl⟩)
    · intro c hc
      refine countEq_eq_zero _ _ ?_
      intro hmem
      rcases (hFcons.cat_iff c x).mp hmem with ⟨r2, hr2, hcr⟩
      rw [hr] at hr2
      cases hr2
      exact hc hcr
  · intro x hn
    constructor
    · refine count_key_zero _ x ?_
      have : ¬((alGet (syncFromGithub s env now).1.globalIdx x)).isSome := by
        rw [hFcons.global_iff x, hn]
        simp
      exact Option.not_isSome_iff_eq_none.mp this
    · intro c
      refine countEq_eq_zero _ _ ?_
      intro hmem
      rcases (hFcons.cat_iff c x).mp hmem with ⟨r2, hr2, _⟩
      rw [hn] at hr2
      exact absurd hr2 (by simp)

/-- Counterexample to claim C1 as stated: two incoming manifests share
the id "x" with different categories.  Every save and delete in the run
succeeds (zero failures, no errors), yet afterwards the record for "x"
has category "skill" while the id is still a member of the "tool"
category index — membership in two category indexes at once. -/
theorem claim1_counterexample :
    (syncFromGithub emptyStore dupIdEnv 0).2.failed = 0
    ∧ (syncFromGithub emptyStore dupIdEnv 0).2.errors = []
    ∧ (alGet (syncFromGithub emptyStore dupIdEnv 0).1.metadata "x").map
        StoredAsset.category = some "skill"
    ∧ countEq (syncFromGithub emptyStore dupIdEnv 0).1.catIdx ("tool", "x") = 1
    ∧ countEq (syncFromGithub emptyStore dupIdEnv 0).1.catIdx ("skill", "x") = 1 := by
  refine ⟨by decide, by decide, by decide, by decide, by decide⟩

theorem claim1_witness :
    countEq (syncFromGithub emptyStore okEnv 0).1.catIdx ("tool", "x") = 1 :=
  ((claim1_index_bijection emptyStore okEnv 0 wf_empty consistent_empty scat_empty
      (by decide) (by decide) (fun _ => rfl) (fun _ => rfl)).1
    "x" toolAssetX.toStoredAsset (by decide)).2.1

theorem shouldUpdate_eq_false_intro (a : Asset) (e : StoredAsset)
    (h1 : e.githubSha = a.githubSha) (h2 : e.version = a.version) :
    shouldUpdateAsset a (some e) = false := by
  simp [shouldUpdateAsset, h1, h2]

theorem delPhase_other (dOk : String → Bool) (L : List String) (s : Store) (x : String)
    (hx : x ∉ L) : alGet (delPhase dOk L s).metadata x = alGet s.metadata x :=
  delPhase_metadata_other dOk L s x hx

theorem syncLoop_metadata_incoming (s0 : Store) (env : SyncEnv)
    (hsOk : ∀ i, env.saveOk i = true) (hids : (env.assets.map Asset.id).Nodup)
    (a : Asset) (ha : a ∈ env.assets) :
    alGet (syncLoopRes s0 env).1.metadata a.id =
      if shouldUpdateAsset a (alGet s0.metadata a.id) then some a.toStoredAsset
      else alGet s0.metadata a.id :=
  loop_metadata_incoming s0.metadata (s0.metadata.map Prod.fst) env.saveOk hsOk
    env.assets s0 { totalProcessed := env.assets.length } hids (fun b _ => rfl) a ha

theorem syncLoop_metadata_untouched (s0 : Store) (env : SyncEnv) (x : String)
    (hx : x ∉ env.assets.map Asset.id) :
    alGet (syncLoopRes s0 env).1.metadata x = alGet s0.metadata x :=
  loop_metadata_untouched s0.metadata (s0.metadata.map Prod.fst) env.saveOk
    env.assets s0 { totalProcessed := env.assets.length } x hx

set_option maxRecDepth 8192 in
/-- Claim C3 (amended): full sync is idempotent provided the pre-run
store is Redis-representable, the incoming asset ids are pairwise
distinct, and every per-asset save and delete of the first run succeeds:
with the repository unchanged, the second run reports zero created,
updated and deleted. -/
theorem claim3_idempotent (s : Store) (env : SyncEnv) (now1 now2 : Nat)
    (hwf : WF s)
    (hids : (env.assets.map Asset.id).Nodup)
    (hsave : ∀ i, env.saveOk i = true) (hdel : ∀ i, env.delOk i = true) :
    (syncFromGithub (syncFromGithub s env now1).1 env now2).2.created = 0
    ∧ (syncFromGithub (syncFromGithub s env now1).1 env now2).2.updated = 0
    ∧ (syncFromGithub (syncFromGithub s env now1).1 env now2).2.deleted = 0 := by
  -- abbreviations for the first run's stages
  have hDnodup : (syncDeletedIds (setSyncStatus s "syncing") env).Nodup :=
    List.Nodup.filter _ hwf.meta_nodup
  have hDmeta : ∀ y ∈ syncDeletedIds (setSyncStatus s "syncing") env,
      (alGet (syncLoopRes (setSyncStatus s "syncing") env).1.metadata y).isSome := by
    intro y hy
    have hykey : y ∈ (setSyncStatus s "syncing").metadata.map Prod.fst :=
      (List.mem_filter.mp hy).1
    exact loop_metadata_isSome _ _ _ env.assets _ _ y ((alGet_isSome_iff _ _).mpr hykey)
  have hremoved : ∀ x ∈ syncDeletedIds (setSyncStatus s "syncing") env,
      alGet (delPhase env.delOk (syncDeletedIds (setSyncStatus s "syncing") env)
        (syncLoopRes (setSyncStatus s "syncing") env).1).metadata x = none :=
    delPhase_removes env.delOk hdel _ _ hDnodup hDmeta
  -- ids absent from the repository end up absent from the store
  have hF2 : ∀ x, x ∉ githubIds env.assets →
      alGet (delPhase env.delOk (syncDeletedIds (setSyncStatus s "syncing") env)
        (syncLoopRes (setSyncStatus s "syncing") env).1).metadata x = none := by
    intro x hx
    by_cases hkey : x ∈ (setSyncStatus s "syncing").metadata.map Prod.fst
    · exact hremoved x (List.mem_filter.mpr ⟨hkey, by simpa using hx⟩)
    · have hxD : x ∉ syncDeletedIds (setSyncStatus s "syncing") env := fun hmem =>
        hkey (List.mem_filter.mp hmem).1
      rw [delPhase_other env.delOk _ _ x hxD,
          syncLoop_metadata_untouched _ env x hx]
      exact (alGet_eq_none_iff _ _).mpr hkey
  -- every incoming id ends the first run stored with matching sha/version
  have hF1 : ∀ a ∈ env.assets, ∃ e,
      alGet (delPhase env.delOk (syncDeletedIds (setSyncStatus s "syncing") env)
        (syncLoopRes (setSyncStatus s "syncing") env).1).metadata a.id = some e
      ∧ e.githubSha = a.githubSha ∧ e.version = a.version := by
    intro a ha
    have hgid : a.id ∈ githubIds env.assets := List.mem_map_of_mem Asset.id ha
    have hxD : a.id ∉ syncDeletedIds (setSyncStatus s "syncing") env := by
      intro hmem
      exact (by simpa using (List.mem_filter.mp hmem).2 : a.id ∉ githubIds env.assets) hgid
    rw [delPhase_other env.delOk _ _ a.id hxD,
        syncLoop_metadata_incoming _ env hsave hids a ha]
    cases hdec : shouldUpdateAsset a (alGet (setSyncStatus s "syncing").metadata a.id) with
    | true =>
      rw [if_pos rfl]
      exact ⟨a.toStoredAsset, rfl, rfl, rfl⟩
    | false =>
      rw [if_neg (by simp)]
      exact shouldUpdate_false_elim a _ hdec
  -- hence the second run's loop skips every incoming asset
  have hskip : ∀ a ∈ env.assets, shouldUpdateAsset a
      (alGet (setSyncStatus (syncFromGithub s env now1).1 "syncing").metadata a.id) =
      false := by
    intro a ha
    rcases hF1 a ha with ⟨e, he, hsha, hver⟩
    have he2 : alGet (setSyncStatus (syncFromGithub s env now1).1 "syncing").metadata a.id =
        some e := he
    rw [he2]
    exact shouldUpdate_eq_false_intro a e hsha hver
  have hloop2 : syncLoopRes (setSyncStatus (syncFromGithub s env now1).1 "syncing") env =
      (setSyncStatus (syncFromGithub s env now1).1 "syncing",
       { totalProcessed := env.assets.length }) :=
    loop_skip_all _ _ _ env.assets _ _ hskip
  -- and the second run's deletion set is empty
  have hD2 : syncDeletedIds (setSyncStatus (syncFromGithub s env now1).1 "syncing") env =
      [] := by
    refine List.filter_eq_nil_iff.mpr ?_
    intro x hx hdec
    have hnotin : x ∉ githubIds env.assets := of_decide_eq_true hdec
    have hkeys : x ∈ (delPhase env.delOk (syncDeletedIds (setSyncStatus s "syncing") env)
        (syncLoopRes (setSyncStatus s "syncing") env).1).metadata.map Prod.fst := hx
    exact (alGet_eq_none_iff _ _).mp (hF2 x hnotin) hkeys
  refine ⟨?_, ?_, ?_⟩
  · show (syncLoopRes (setSyncStatus (syncFromGithub s env now1).1 "syncing") env).2.created = 0
    rw [hloop2]
  · show (syncLoopRes (setSyncStatus (syncFromGithub s env now1).1 "syncing") env).2.updated = 0
    rw [hloop2]
  · show (syncDeletedIds (setSyncStatus (syncFromGithub s env now1).1 "syncing") env).length = 0
    rw [hD2]
    rfl

/-- Counterexample to claim C3 as stated: two incoming manifests share
the id "x" with different revisions.  The first run completes with zero
failures and no recorded errors, the repository is unchanged between
runs, yet the second run still reports one update — the loop compares
each manifest against the pre-run snapshot, so the duplicate keeps
flip-flopping the stored record. -/
theorem claim3_counterexample :
    (syncFromGithub emptyStore dupIdEnv 0).2.failed = 0
    ∧ (syncFromGithub emptyStore dupIdEnv 0).2.errors = []
    ∧ (syncFromGithub (syncFromGithub emptyStore dupIdEnv 0).1 dupIdEnv 1).2.updated = 1 := by
  refine ⟨by decide, by decide, by decide⟩

theorem claim3_witness :
    (syncFromGithub (syncFromGithub emptyStore okEnv 0).1 okEnv 1).2.created = 0
    ∧ (syncFromGithub (syncFromGithub emptyStore okEnv 0).1 okEnv 1).2.updated = 0
    ∧ (syncFromGithub (syncFromGithub emptyStore okEnv 0).1 okEnv 1).2.deleted = 0 :=
  claim3_idempotent emptyStore okEnv 0 1 wf_empty (by decide)
    (fun _ => rfl) (fun _ => rfl)

set_option maxRecDepth 8192 in
/-- Claim C7 (amended): starting from a Redis-representable, consistent
store whose record for the id has category "tool", if the incoming
manifest for the same id has category "skill" and a changed revision or
version (as any edited manifest file has), incoming ids are distinct,
and every save and delete succeeds, then after the full sync the id is
absent from the "tool" category index and present exactly once in the
"skill" one. -/
theorem claim7_category_migration (s : Store) (env : SyncEnv) (now : Nat)
    (hwf : WF s) (hcons : Consistent s) (hscat : StoreCatsValid s)
    (hacat : ∀ a ∈ env.assets, validCategory a.manifest.category)
    (hids : (env.assets.map Asset.id).Nodup)
    (hsave : ∀ i, env.saveOk i = true) (hdel : ∀ i, env.delOk i = true)
    (a : Asset) (ha : a ∈ env.assets) (r : StoredAsset)
    (hold : alGet s.metadata a.id = some r)
    (hrtool : r.category = "tool") (hanew : a.manifest.category = "skill")
    (hchange : r.githubSha ≠ a.githubSha ∨ r.version ≠ a.version) :
    countEq (syncFromGithub s env now).1.catIdx ("tool", a.id) = 0
    ∧ countEq (syncFromGithub s env now).1.catIdx ("skill", a.id) = 1 := by
  obtain ⟨hFwf, hFcons, _⟩ := sync_final_invariants s env now hwf hcons hscat hacat hids
  have hold0 : alGet (setSyncStatus s "syncing").metadata a.id = some r := hold
  have hupd : shouldUpdateAsset a (alGet (setSyncStatus s "syncing").metadata a.id) =
      true := by
    rw [hold0]
    exact (shouldUpdate_some_iff a r).mpr hchange
  have hgid : a.id ∈ githubIds env.assets := List.mem_map_of_mem Asset.id ha
  have hxD : a.id ∉ syncDeletedIds (setSyncStatus s "syncing") env := by
    intro hmem
    exact (by simpa using (List.mem_filter.mp hmem).2 : a.id ∉ githubIds env.assets) hgid
  have hmeta : alGet (delPhase env.delOk (syncDeletedIds (setSyncStatus s "syncing") env)
      (syncLoopRes (setSyncStatus s "syncing") env).1).metadata a.id =
      some a.toStoredAsset := by
    rw [delPhase_other env.delOk _ _ a.id hxD,
        syncLoop_metadata_incoming _ env hsave hids a ha, if_pos hupd]
  have hFmeta : alGet (syncFromGithub s env now).1.metadata a.id =
      some a.toStoredAsset := hmeta
  have hFcat : a.toStoredAsset.category = "skill" := hanew
  constructor
  · refine countEq_eq_zero _ _ ?_
    intro hmem
    rcases (hFcons.cat_iff "tool" a.id).mp hmem with ⟨r2, hr2, hcr⟩
    rw [hFmeta] at hr2
    cases hr2
    rw [hFcat] at hcr
    exact absurd hcr (by decide)
  · refine countEq_eq_one _ _ hFwf.cat_nodup ?_
    exact (hFcons.cat_iff "skill" a.id).mpr ⟨a.toStoredAsset, hFmeta, hFcat.symm⟩

/-- Counterexample to claim C7 as stated: the stored record for "x" has
category "tool" and the incoming manifest for "x" has category "skill",
but with an unchanged github sha and version, so the sync skips the
asset: after a fully successful run the id is still in the "tool"
category index and absent from the "skill" one. -/
theorem claim7_counterexample :
    (syncFromGithub toolStoreX skillSameShaEnv 0).2.failed = 0
    ∧ (syncFromGithub toolStoreX skillSameShaEnv 0).2.errors = []
    ∧ (alGet toolStoreX.metadata "x").map StoredAsset.category = some "tool"
    ∧ skillSameShaEnv.assets.map Asset.category = ["skill"]
    ∧ countEq (syncFromGithub toolStoreX skillSameShaEnv 0).1.catIdx ("tool", "x") = 1
    ∧ countEq (syncFromGithub toolStoreX skillSameShaEnv 0).1.catIdx ("skill", "x") = 0 := by
  refine ⟨by decide, by decide, by decide, by decide, by decide, by decide⟩

theorem consistent_toolStoreX : Consistent toolStoreX := by
  constructor
  · intro x
    by_cases hx : ("x" : String) = x <;> simp [toolStoreX, alGet, hx]
  · intro c x
    by_cases hx : ("x" : String) = x
    · subst hx
      constructor
      · intro hmem
        have hpair : (c, "x") = ("tool", "x") := List.mem_singleton.mp hmem
        have hc : c = "tool" := congrArg Prod.fst hpair
        exact ⟨toolAssetX.toStoredAsset, rfl, by rw [hc]; rfl⟩
      · rintro ⟨r, hr, hcr⟩
        have hr2 : toolAssetX.toStoredAsset = r :=
          Option.some.inj (show some toolAssetX.toStoredAsset = some r from hr)
        have hc : c = "tool" := by rw [hcr, ← hr2]; rfl
        rw [hc]
        exact List.mem_singleton.mpr rfl
    · constructor
      · intro hmem
        have hpair : (c, x) = ("tool", "x") := List.mem_singleton.mp hmem
        exact absurd (congrArg Prod.snd hpair : x = "x") (fun h => hx h.symm)
      · rintro ⟨r, hr, _⟩
        have : alGet toolStoreX.metadata x = none := by
          show alGet [("x", toolAssetX.toStoredAsset)] x = none
          simp [alGet, hx]
        rw [this] at hr
        cases hr

theorem scat_toolStoreX : StoreCatsValid toolStoreX := by
  intro x r hr
  by_cases hx : ("x" : String) = x
  · subst hx
    have hr2 : toolAssetX.toStoredAsset = r :=
      Option.some.inj (show some toolAssetX.toStoredAsset = some r from hr)
    rw [← hr2]
    exact Or.inl rfl
  · have : alGet toolStoreX.metadata x = none := by
      show alGet [("x", toolAssetX.toStoredAsset)] x = none
      simp [alGet, hx]
    rw [this] at hr
    cases hr

theorem claim7_witness :
    countEq (syncFromGithub toolStoreX skillNewShaEnv 0).1.catIdx ("tool", "x") = 0
    ∧ countEq (syncFromGithub toolStoreX skillNewShaEnv 0).1.catIdx ("skill", "x") = 1 :=
  claim7_category_migration toolStoreX skillNewShaEnv 0 (by constructor <;> decide)
    consistent_toolStoreX scat_toolStoreX (by decide) (by decide)
    (fun _ => rfl) (fun _ => rfl) skillAssetX (by decide)
    toolAssetX.toStoredAsset (by decide) rfl rfl (Or.inl (by decide))

end AssetSync
